import Mathlib

/-!
Verification of the group-chat coordination core of the `argo` repository.

Python strings are embedded as `List Char` (`Str`); Python dictionaries as
association lists with insertion-order-preserving update (`setk`), matching
CPython `dict` semantics.  Pure functions of the source are translated
directly; filesystem and model-invocation effects are abstracted as explicit
environment parameters.
-/

namespace Argo

/-- Python `str` embedded as a list of characters. -/
abbrev Str := List Char

/-- Coerce a Lean string literal to the embedded string type. -/
def strOf (s : String) : Str := s.data

/-- Python's `\s` character class for ASCII text: space, tab, newline,
carriage return, vertical tab, form feed.  Also the set stripped by
`str.strip()` for ASCII input. -/
def isPySpace (c : Char) : Bool :=
  c = ' ' || c = '\t' || c = '\n' || c = '\r' || c = '\x0b' || c = '\x0c'

/-- ASCII lowercasing of one character (model of `re.IGNORECASE` folding and
`str.lower()` for ASCII). -/
def lowerChar (c : Char) : Char :=
  if 'A' ≤ c ∧ c ≤ 'Z' then Char.ofNat (c.toNat + 32) else c

/-- ASCII lowercasing of a string. -/
def lowerStr (s : Str) : Str := s.map lowerChar

/-- ASCII uppercasing of one character (model of `str.upper()` for ASCII). -/
def upperChar (c : Char) : Char :=
  if 'a' ≤ c ∧ c ≤ 'z' then Char.ofNat (c.toNat - 32) else c

/-- ASCII uppercasing of a string. -/
def pyUpper (s : Str) : Str := s.map upperChar

/-- Python `str.strip()` (ASCII whitespace): drop leading whitespace. -/
def pyStripL (s : Str) : Str := s.dropWhile isPySpace

/-- Python `str.strip()` (ASCII whitespace): leading and trailing. -/
def pyStrip (s : Str) : Str :=
  ((pyStripL s).reverse.dropWhile isPySpace).reverse

/-- Lookup in an association list (first binding wins), as in a Python dict
read. -/
def lookupOpt {α : Type} (s : List (Str × α)) (k : Str) : Option α :=
  match s with
  | [] => none
  | p :: t => if p.1 = k then some p.2 else lookupOpt t k

/-- Dict read with a default, as in Python `dict.get(key, default)`. -/
def getD (s : List (Str × Str)) (k : Str) (d : Str) : Str :=
  (lookupOpt s k).getD d

/-- Dict write with CPython semantics: an existing key keeps its position in
the enumeration order, a fresh key is appended at the end. -/
def setk (s : List (Str × Str)) (k : Str) (v : Str) : List (Str × Str) :=
  match s with
  | [] => [(k, v)]
  | p :: t => if p.1 = k then (k, v) :: t else p :: setk t k v

/-! ## `src/argo/utils/utils.py`: `check_tag_presence`

`check_tag_presence(text, tag)` is
`bool(re.search(rf"<{tag}\s*/>|<{tag}>", text, re.IGNORECASE))`.
`re.IGNORECASE` over ASCII is modelled by lowercasing both the pattern's
literal characters and the text; the `\s` class is case-invariant. -/

/-- After `<tag` has been consumed, the self-closing alternative
`\s*/>`: zero or more whitespace characters and then `/>`. -/
def closeAfterWs : Str → Bool
  | [] => false
  | c :: t => if c = '/' then t.head? = some '>' else (isPySpace c && closeAfterWs t)

/-- Does the (already lowercased) text `l` match `<tag\s*/>|<tag>` at its
first position?  `ltag` is the lowercased tag name. -/
def tagHitAt (ltag : Str) (l : Str) : Bool :=
  match l with
  | [] => false
  | c :: rest =>
      c = '<' && ltag.isPrefixOf rest &&
        (((rest.drop ltag.length).head? = some '>') || closeAfterWs (rest.drop ltag.length))

/-- `re.search`: does any position of `l` start a match? -/
def existsHit (ltag : Str) : Str → Bool
  | [] => false
  | c :: t => tagHitAt ltag (c :: t) || existsHit ltag t

/-- `check_tag_presence` from `src/argo/utils/utils.py`: checks whether
`<tag/>` (with optional internal whitespace before `/>`) or the opening tag
`<tag>` occurs in `text`, case-insensitively. -/
def check_tag_presence (text tag : Str) : Bool :=
  existsHit (lowerStr tag) (lowerStr text)

/-- The tag that `_CheckConsensusAndEscalate` looks for. -/
def consensusTag : Str := strOf "consensus_reached"

/-! ## `src/argo/workflows/group_chat.py` -/

/-- The session key holding the transcript. -/
def chatKey : Str := strOf "chat_history"

/-- The session key hard-coded in `_CheckConsensusAndEscalate`. -/
def coordMsgKey : Str := strOf "Coordinator_message"

/-- The suffix of the participant-output naming convention. -/
def msuffix : Str := strOf "_message"

/-- The output-slot key of a participant with identity `id`. -/
def mkey (id : Str) : Str := id ++ msuffix

/-- Does a session key match `re.compile(r"^(?P<name>.+)_message$")`?
`.+` is greedy, does not cross a newline, and needs at least one character,
so a key matches iff it ends in `_message` with a nonempty, newline-free
stem in front. -/
def keyMatches (k : Str) : Bool :=
  msuffix.isSuffixOf k && decide (msuffix.length < k.length) &&
    (k.take (k.length - msuffix.length)).all (fun c => !(c = '\n'))

/-- The `name` group captured by the pattern: everything before the final
`_message`. -/
def stemOf (k : Str) : Str := k.take (k.length - msuffix.length)

/-- `new_messages` of `_UpdateChatHistory`: the `{name: value}` pairs of all
state keys matching the naming convention, in state enumeration order. -/
def newMessages (s : List (Str × Str)) : List (Str × Str) :=
  s.filterMap (fun p => if keyMatches p.1 then some (stemOf p.1, p.2) else none)

/-- One transcript line: `f"[{name}]: {message}\n"`. -/
def fmtEntry (name msg : Str) : Str :=
  '[' :: name ++ strOf "]: " ++ msg ++ ['\n']

/-- `updated_chat_history` computed by `_UpdateChatHistory` from a session
snapshot: the previous transcript, a newline, then the `"\n".join` of the
formatted entries. -/
def updDelta (s : List (Str × Str)) : Str :=
  getD s chatKey [] ++ ['\n'] ++
    List.intercalate ['\n'] ((newMessages s).map (fun p => fmtEntry p.1 p.2))

/-- Committing `_UpdateChatHistory`'s `state_delta` to the session. -/
def applyUpd (s : List (Str × Str)) : List (Str × Str) :=
  setk s chatKey (updDelta s)

/-- `_CheckConsensusAndEscalate`'s escalation flag for a session snapshot:
`check_tag_presence(state.get("Coordinator_message", ""), "consensus_reached")`. -/
def escalate (s : List (Str × Str)) : Bool :=
  check_tag_presence (getD s coordMsgKey []) consensusTag

/-- One run of the group chat, abstracting the opaque per-agent generation
calls: `wgOut i` is the list of `(identity, message)` pairs the working-group
participants produce in round `i` (a failing participant is simply absent),
`coordOut i` is the coordinator's message in round `i`, and `coordKey` is the
coordinator agent's output slot key. -/
structure GroupChatCfg where
  wgOut : Nat → List (Str × Str)
  coordKey : Str
  coordOut : Nat → Str

/-- The working-group fan-out commits each produced message to the slot
`<identity>_message`; the participants write to disjoint keys, so the
commit order is immaterial and is taken as list order. -/
def wgWrite (pairs : List (Str × Str)) (s : List (Str × Str)) : List (Str × Str) :=
  pairs.foldl (fun st p => setk st (mkey p.1) p.2) s

/-- The session after round `i`'s working-group and coordinator writes,
before the transcript update. -/
def writesState (cfg : GroupChatCfg) (i : Nat) (s : List (Str × Str)) : List (Str × Str) :=
  setk (wgWrite (cfg.wgOut i) s) cfg.coordKey (cfg.coordOut i)

/-- One full round of the loop body: working-group fan-out, coordinator,
transcript update.  (The consensus check reads the resulting state and
writes nothing.) -/
def roundStep (cfg : GroupChatCfg) (i : Nat) (s : List (Str × Str)) : List (Str × Str) :=
  applyUpd (writesState cfg i s)

/-- The session after the first `n` rounds, starting from `s0`. -/
def stateAfter (cfg : GroupChatCfg) (s0 : List (Str × Str)) : Nat → List (Str × Str)
  | 0 => s0
  | n + 1 => roundStep cfg n (stateAfter cfg s0 n)

/-- The text round `i` appends to `chat_history`. -/
def appendedInRound (cfg : GroupChatCfg) (s0 : List (Str × Str)) (i : Nat) : Str :=
  (getD (stateAfter cfg s0 (i + 1)) chatKey []).drop
    (getD (stateAfter cfg s0 i) chatKey []).length

/-- The terminal states of the Round Controller. -/
inductive LoopTerminal where
  | CONSENSUS_REACHED : LoopTerminal
  | EXHAUSTED : LoopTerminal
deriving DecidableEq, Repr

/-- Modelled from the spec: the Round Controller state machine of §4.6 (the
loop driver is the hosting framework's `LoopAgent`, which is not part of the
repository).  From `RUNNING(i)` it executes one round; if the consensus
check escalates it stops in `CONSENSUS_REACHED`, else after `max_iterations`
rounds it stops in `EXHAUSTED`.  Returns the terminal state, the number of
rounds executed, and the final session. -/
def runLoopAux (cfg : GroupChatCfg) :
    Nat → Nat → List (Str × Str) → LoopTerminal × Nat × List (Str × Str)
  | 0, i, s => (.EXHAUSTED, i, s)
  | n + 1, i, s =>
      let s' := roundStep cfg i s
      if escalate s' then (.CONSENSUS_REACHED, i + 1, s')
      else runLoopAux cfg n (i + 1) s'

/-- Modelled from the spec: a full run of the Round Controller with the given
iteration budget, starting at `RUNNING(0)`. -/
def runLoop (cfg : GroupChatCfg) (maxIter : Nat) (s0 : List (Str × Str)) :
    LoopTerminal × Nat × List (Str × Str) :=
  runLoopAux cfg maxIter 0 s0

/-- The value the last write in a round's fan-out list leaves in a slot:
the foldl of `setk` lets a later pair with the same identity overwrite an
earlier one. -/
def plookupLast (id : Str) : List (Str × Str) → Option Str
  | [] => none
  | p :: t =>
      match plookupLast id t with
      | some v => some v
      | none => if p.1 = id then some p.2 else none

/-- The most recent message identity `id` produced in working-group rounds
`0 .. r-1` (none if it never produced one). -/
def latestBefore (cfg : GroupChatCfg) (id : Str) : Nat → Option Str
  | 0 => none
  | r + 1 =>
      match plookupLast id (cfg.wgOut r) with
      | some v => some v
      | none => latestBefore cfg id r

/-- The value the fan-out list leaves under session key `k` (last write
wins), or `none` when no pair of the list writes `k`. -/
def lastWrite (k : Str) : List (Str × Str) → Option Str
  | [] => none
  | p :: t =>
      match lastWrite k t with
      | some v => some v
      | none => if mkey p.1 = k then some p.2 else none

/-- A concrete configuration for witnesses and counterexamples: participant
`A` produces `hi` in round 0 and nothing afterwards; the coordinator always
answers `ok` (no marker). -/
def cfgW : GroupChatCfg where
  wgOut := fun r => if r = 0 then [(strOf "A", strOf "hi")] else []
  coordKey := coordMsgKey
  coordOut := fun _ => strOf "ok"

/-- A concrete configuration whose coordinator emits the paired marker in
round 1. -/
def cfgC : GroupChatCfg where
  wgOut := fun _ => [(strOf "A", strOf "hi")]
  coordKey := coordMsgKey
  coordOut := fun r =>
    if r = 1 then strOf "All agree. <Consensus_Reached>yes</Consensus_Reached>" else strOf "go"

/-- A concrete configuration whose coordinator always emits a bare opening
tag, which is not a marker in the spec's sense (neither self-closing nor
paired). -/
def cfgB : GroupChatCfg where
  wgOut := fun _ => [(strOf "A", strOf "hi")]
  coordKey := coordMsgKey
  coordOut := fun _ => strOf "<consensus_reached>"

/-- A concrete configuration whose coordinator writes its output under the
key `Judge_message` instead of `Coordinator_message`, while emitting the
self-closing marker every round. -/
def cfgM : GroupChatCfg where
  wgOut := fun _ => [(strOf "A", strOf "hi")]
  coordKey := strOf "Judge_message"
  coordOut := fun _ => strOf "<consensus_reached/>"

/-! ## `evals/gaia_benchmark.py`: `extract_final_answer` and the result record -/

/-- The lowercased literal of the pattern `FINAL ANSWER:` (matched with
`re.IGNORECASE`). -/
def faNeedle : Str := strOf "final answer:"

/-- The sentinel substituted when no final answer is found. -/
def sentinel : Str := strOf "NO_FINAL_ANSWER_FOUND"

/-- Index of the first occurrence of `needle` in `l` (both already
lowercased), as found by `re.search` scanning left to right. -/
def findSub (needle : Str) : Str → Option Nat
  | [] => none
  | c :: t =>
      if needle.isPrefixOf (c :: t) then some 0
      else (findSub needle t).map (· + 1)

/-- The lazy group `(.*?)(?:\n|$)`: everything up to the next newline or the
end of the text. -/
def takeLine (s : Str) : Str := s.takeWhile (fun c => !(c = '\n'))

/-- Python `str.split('\n')`. -/
def splitLines (s : Str) : List Str := s.splitOn '\n'

/-- The two line-based fallbacks of `extract_final_answer`, reached when the
regex finds no match: if the second-to-last of the stripped response's lines
is exactly `FINAL ANSWER:` (up to case and surrounding whitespace) return
the stripped last line; else if the stripped response is a single line
return it stripped; else `None`. -/
def fallbackAnswer (response : Str) : Option Str :=
  let lines := splitLines (pyStrip response)
  if 1 < lines.length ∧ pyUpper (pyStrip (lines.getD (lines.length - 2) [])) = strOf "FINAL ANSWER:" then
    some (pyStrip (lines.getD (lines.length - 1) []))
  else if lines.length = 1 then
    some (pyStrip (lines.getD 0 []))
  else
    none

/-- `extract_final_answer` from `evals/gaia_benchmark.py`.
`re.search(r'FINAL ANSWER:\s*(.*?)(?:\n|$)', response, re.IGNORECASE |
re.DOTALL)` finds the first case-insensitive occurrence of `FINAL ANSWER:`;
the greedy `\s*` then consumes all following whitespace (newlines included)
and the lazy group captures up to the next newline or the end, which always
succeeds without backtracking.  On no match, the two line-based fallbacks
run on `response.strip().split('\n')`. -/
def extract_final_answer (response : Str) : Option Str :=
  match findSub faNeedle (lowerStr response) with
  | some i =>
      some (pyStrip (takeLine ((response.drop (i + faNeedle.length)).dropWhile isPySpace)))
  | none => fallbackAnswer response

/-- The `model_answer` field computed in `evaluate_gaia_benchmark`:
`if not final_answer: final_answer = "NO_FINAL_ANSWER_FOUND"` — Python
treats both `None` and the empty string as falsy. -/
def model_answer (finalResponseText : Str) : Str :=
  match extract_final_answer finalResponseText with
  | none => sentinel
  | some a => if a = [] then sentinel else a

/-- The result record built in `evaluate_gaia_benchmark` for a completed
task. -/
def mkResult (taskId finalResponseText : Str) : List (Str × Str) :=
  [(strOf "task_id", taskId),
   (strOf "model_answer", model_answer finalResponseText),
   (strOf "reasoning_trace", finalResponseText)]

/-! ## `src/argo/tools/unzip.py`: `unzip_file`

Filesystem and environment effects are abstracted into an explicit
environment record; each boolean mirrors one runtime test of the source and
`extractResult` mirrors `_extract_archive`'s `(success, error)` pair as
`none` (success) or `some error`. -/

/-- One entry of `_get_file_list`'s output. -/
structure FileInfo where
  path : Str
  ftype : Str
  size : Nat
deriving DecidableEq

/-- A value of the heterogeneous result dictionary. -/
inductive UZVal where
  | str : Str → UZVal
  | files : List FileInfo → UZVal
deriving DecidableEq

/-- The outcomes of the filesystem operations `unzip_file` performs. -/
structure UnzipEnv where
  /-- `os.environ.get("UNZIP_PATH")`. -/
  unzipPath : Option Str
  /-- `p_file_path.exists()`. -/
  fileExists : Bool
  /-- `p_file_path.is_file()`. -/
  isFile : Bool
  /-- `extract_dir.exists() and extract_dir.is_dir()`. -/
  extractDirExists : Bool
  /-- `any(extract_dir.iterdir())`. -/
  extractDirNonEmpty : Bool
  /-- whether `extract_dir.mkdir(parents=True, exist_ok=True)` succeeds. -/
  mkdirOk : Bool
  /-- the `OSError` text if `mkdir` fails. -/
  mkdirErr : Str
  /-- the `success` component of `_extract_archive`'s `(success, error)` pair. -/
  extractOk : Bool
  /-- the `error` component of `_extract_archive`'s pair when it fails. -/
  extractErr : Str
  /-- `_get_file_list(extract_dir_str)`. -/
  fileList : List FileInfo
  /-- `extract_dir_str`. -/
  extractDirStr : Str

/-- The dictionary every error path of `unzip_file` returns. -/
def uzErr (msg : Str) : List (Str × UZVal) :=
  [(strOf "status", .str (strOf "error")),
   (strOf "extracted_files", .files []),
   (strOf "message", .str msg)]

/-- A success dictionary of `unzip_file`. -/
def uzOk (dir : Str) (fl : List FileInfo) (msg : Str) : List (Str × UZVal) :=
  [(strOf "status", .str (strOf "success")),
   (strOf "extract_dir", .str dir),
   (strOf "extracted_files", .files fl),
   (strOf "message", .str msg)]

/-- `unzip_file` from `src/argo/tools/unzip.py`, with its filesystem
operations' outcomes supplied by `env`.  Every early `return` of the source
is one branch. -/
def unzip_file (env : UnzipEnv) (filePath : Str) : List (Str × UZVal) :=
  if env.unzipPath = none ∨ env.unzipPath = some [] then
    uzErr (strOf "Error: UNZIP_PATH environment variable is not set.")
  else if env.fileExists = false then
    uzErr (strOf "Error: The file " ++ filePath ++ strOf " does not exist.")
  else if env.isFile = false then
    uzErr (strOf "Error: " ++ filePath ++ strOf " is not a file.")
  else if env.extractDirExists && env.extractDirNonEmpty then
    uzOk env.extractDirStr env.fileList
      (strOf "Archive '" ++ filePath ++ strOf "' appears to be already extracted to '" ++
        env.extractDirStr ++ strOf "'.")
  else if env.mkdirOk = false then
    uzErr (strOf "Error creating extraction directory '" ++ env.extractDirStr ++
      strOf "': " ++ env.mkdirErr)
  else if env.extractOk = false then
    uzErr (strOf "Failed to extract " ++ filePath ++ strOf ": " ++ env.extractErr)
  else
    uzOk env.extractDirStr env.fileList
      (strOf "Successfully extracted " ++ filePath ++ strOf " to " ++ env.extractDirStr ++
        strOf ". Found " ++ Nat.toDigits 10 env.fileList.length ++ strOf " items.")

/-! ## Spec-side definitions for refinement comparison -/

/-- Is `needle` a contiguous substring of `hay`? -/
def isInfixB (needle : Str) : Str → Bool
  | [] => needle.isEmpty
  | c :: t => needle.isPrefixOf (c :: t) || isInfixB needle t

/-- The paired form of the marker per the claim's words: an occurrence of
`<consensus_reached>` followed (anywhere later) by `</consensus_reached>`,
on lowercased text. -/
def pairedB : Str → Bool
  | [] => false
  | c :: t =>
      ((strOf "<consensus_reached>").isPrefixOf (c :: t) &&
        isInfixB (strOf "</consensus_reached>") ((c :: t).drop (strOf "<consensus_reached>").length)) ||
      pairedB t

/-- The consensus predicate as the claim words it: the message contains,
case-insensitively, the self-closing marker `<consensus_reached/>` or the
paired form `<consensus_reached>...</consensus_reached>`.  Stated from the
spec's words, for comparison against `check_tag_presence`. -/
def specMarkerC1 (text : Str) : Bool :=
  isInfixB (strOf "<consensus_reached/>") (lowerStr text) || pairedB (lowerStr text)

/-! ## Helper lemmas: association-list session state -/

theorem lookupOpt_setk (s : List (Str × Str)) (k v k' : Str) :
    lookupOpt (setk s k v) k' = if k' = k then some v else lookupOpt s k' := by
  induction s with
  | nil =>
      by_cases h : k' = k
      · subst h
        simp [setk, lookupOpt]
      · simp [setk, lookupOpt, h, Ne.symm h]
  | cons p t ih =>
      by_cases hp : p.1 = k
      · subst hp
        by_cases h : k' = p.1
        · subst h
          simp [setk, lookupOpt]
        · simp [setk, lookupOpt, h, Ne.symm h]
      · by_cases h2 : p.1 = k'
        · subst h2
          simp [setk, lookupOpt, hp]
        · simp [setk, lookupOpt, hp, h2, ih]

theorem getD_setk (s : List (Str × Str)) (k v k' d : Str) :
    getD (setk s k v) k' d = if k' = k then v else getD s k' d := by
  by_cases h : k' = k <;> simp [getD, lookupOpt_setk, h]

theorem mem_keys_setk (s : List (Str × Str)) (k v k' : Str) :
    k' ∈ (setk s k v).map Prod.fst ↔ k' = k ∨ k' ∈ s.map Prod.fst := by
  induction s with
  | nil => simp [setk]
  | cons p t ih =>
      by_cases h : p.1 = k
      · subst h
        simp [setk]
        try tauto
      · simp [setk, h, ih]
        try tauto

theorem keys_nodup_setk (s : List (Str × Str)) (k v : Str)
    (h : (s.map Prod.fst).Nodup) : ((setk s k v).map Prod.fst).Nodup := by
  induction s with
  | nil => simp [setk]
  | cons p t ih =>
      by_cases hp : p.1 = k
      · subst hp
        simp [setk]
        simpa using h
      · simp only [setk, if_neg hp, List.map_cons, List.nodup_cons] at h ⊢
        refine ⟨fun hc => ?_, ih h.2⟩
        rcases (mem_keys_setk t k v p.1).mp hc with h1 | h1
        · exact hp h1
        · exact h.1 h1

theorem mem_iff_lookupOpt {s : List (Str × Str)} (h : (s.map Prod.fst).Nodup)
    (k v : Str) : (k, v) ∈ s ↔ lookupOpt s k = some v := by
  induction s with
  | nil => simp [lookupOpt]
  | cons p t ih =>
      simp only [List.map_cons, List.nodup_cons] at h
      by_cases hk : p.1 = k
      · subst hk
        constructor
        · intro hm
          rcases List.mem_cons.mp hm with he | hm2
          · rw [← he]
            simp [lookupOpt]
          · exact absurd (List.mem_map_of_mem Prod.fst hm2) h.1
        · intro hv
          have h2 : p.2 = v := by simpa [lookupOpt] using hv
          exact List.mem_cons.mpr (Or.inl (by rw [← h2]))
      · constructor
        · intro hm
          rcases List.mem_cons.mp hm with he | hm2
          · exact absurd (congrArg Prod.fst he).symm hk
          · simpa [lookupOpt, hk] using (ih h.2).mp hm2
        · intro hv
          exact List.mem_cons.mpr (Or.inr ((ih h.2).mpr (by simpa [lookupOpt, hk] using hv)))

/-! ## Helper lemmas: the tag-presence search -/

theorem existsHit_iff (ltag l : Str) :
    existsHit ltag l = true ↔ ∃ i, tagHitAt ltag (l.drop i) = true := by
  induction l with
  | nil => simp [existsHit, tagHitAt]
  | cons c t ih =>
      simp only [existsHit, Bool.or_eq_true]
      constructor
      · rintro (h | h)
        · exact ⟨0, h⟩
        · obtain ⟨i, hi⟩ := ih.mp h
          exact ⟨i + 1, by simpa using hi⟩
      · rintro ⟨i, hi⟩
        cases i with
        | zero => exact Or.inl hi
        | succ j => exact Or.inr (ih.mpr ⟨j, by simpa using hi⟩)

theorem closeAfterWs_iff (l : Str) :
    closeAfterWs l = true ↔
      ∃ ws post, l = ws ++ ('/' :: '>' :: post) ∧ ∀ c ∈ ws, isPySpace c = true := by
  induction l with
  | nil =>
      constructor
      · intro h
        simp [closeAfterWs] at h
      · rintro ⟨ws, post, h, -⟩
        cases ws <;> simp_all
  | cons c t ih =>
      by_cases hc : c = '/'
      · subst hc
        constructor
        · intro h
          cases t with
          | nil => simp [closeAfterWs] at h
          | cons a t' =>
              have ha : a = '>' := by simpa [closeAfterWs] using h
              subst ha
              exact ⟨[], t', rfl, by simp⟩
        · rintro ⟨ws, post, h, hws⟩
          cases ws with
          | nil =>
              have h2 : t = '>' :: post := by injection h
              rw [h2]
              simp [closeAfterWs]
          | cons w ws' =>
              have h1 : '/' = w := by injection h
              have hw := hws w (by simp)
              rw [← h1] at hw
              exact absurd hw (by decide)
      · have hred : closeAfterWs (c :: t) = (isPySpace c && closeAfterWs t) := by
          simp [closeAfterWs, hc]
        rw [hred, Bool.and_eq_true, ih]
        constructor
        · rintro ⟨hcs, ws, post, h, hws⟩
          refine ⟨c :: ws, post, by rw [List.cons_append, h], fun d hd => ?_⟩
          rcases List.mem_cons.mp hd with rfl | hd'
          · exact hcs
          · exact hws d hd'
        · rintro ⟨ws, post, h, hws⟩
          cases ws with
          | nil =>
              have h1 : c = '/' := by injection h
              exact absurd h1 hc
          | cons w ws' =>
              have h1 : c = w := by injection h
              have h2 : t = ws' ++ ('/' :: '>' :: post) := by injection h
              refine ⟨by rw [h1]; exact hws w (by simp), ws', post, h2, fun d hd => hws d (by simp [hd])⟩

theorem tagHitAt_iff (ltag l : Str) :
    tagHitAt ltag l = true ↔
      (∃ post, l = '<' :: (ltag ++ ('>' :: post))) ∨
      (∃ ws post, l = '<' :: (ltag ++ (ws ++ ('/' :: '>' :: post))) ∧
        ∀ c ∈ ws, isPySpace c = true) := by
  cases l with
  | nil => simp [tagHitAt]
  | cons c rest =>
      simp only [tagHitAt, Bool.and_eq_true, Bool.or_eq_true, decide_eq_true_eq]
      constructor
      · rintro ⟨⟨hc, hpre⟩, hrest⟩
        subst hc
        obtain ⟨after, happ⟩ := List.isPrefixOf_iff_prefix.mp hpre
        have hdrop : rest.drop ltag.length = after := by
          rw [← happ, List.drop_left]
        rcases hrest with hgt | hcw
        · rw [hdrop] at hgt
          cases after with
          | nil => simp at hgt
          | cons a post =>
              simp only [List.head?_cons, Option.some_inj] at hgt
              subst hgt
              exact Or.inl ⟨post, by rw [← happ]⟩
        · rw [hdrop] at hcw
          obtain ⟨ws, post, he, hws⟩ := (closeAfterWs_iff after).mp hcw
          refine Or.inr ⟨ws, post, ?_, hws⟩
          rw [← happ, he]
      · rintro (⟨post, he⟩ | ⟨ws, post, he, hws⟩)
        · have h1 : c = '<' := by injection he
          have h2 : rest = ltag ++ ('>' :: post) := by injection he
          subst h1
          refine ⟨⟨rfl, List.isPrefixOf_iff_prefix.mpr ⟨'>' :: post, h2.symm⟩⟩, Or.inl ?_⟩
          rw [h2, List.drop_left]
          rfl
        · have h1 : c = '<' := by injection he
          have h2 : rest = ltag ++ (ws ++ ('/' :: '>' :: post)) := by injection he
          subst h1
          refine ⟨⟨rfl, List.isPrefixOf_iff_prefix.mpr ⟨ws ++ ('/' :: '>' :: post), h2.symm⟩⟩, Or.inr ?_⟩
          rw [h2, List.drop_left]
          exact (closeAfterWs_iff _).mpr ⟨ws, post, rfl, hws⟩

theorem check_tag_presence_iff (text tag : Str) :
    check_tag_presence text tag = true ↔
      (∃ pre post, lowerStr text = pre ++ ('<' :: (lowerStr tag ++ ('>' :: post)))) ∨
      (∃ pre ws post,
        lowerStr text = pre ++ ('<' :: (lowerStr tag ++ (ws ++ ('/' :: '>' :: post)))) ∧
        ∀ c ∈ ws, isPySpace c = true) := by
  unfold check_tag_presence
  rw [existsHit_iff]
  constructor
  · rintro ⟨i, hi⟩
    rcases (tagHitAt_iff _ _).mp hi with ⟨post, he⟩ | ⟨ws, post, he, hws⟩
    · refine Or.inl ⟨(lowerStr text).take i, post, ?_⟩
      conv_lhs => rw [← List.take_append_drop i (lowerStr text)]
      rw [he]
    · refine Or.inr ⟨(lowerStr text).take i, ws, post, ?_, hws⟩
      conv_lhs => rw [← List.take_append_drop i (lowerStr text)]
      rw [he]
  · rintro (⟨pre, post, he⟩ | ⟨pre, ws, post, he, hws⟩)
    · refine ⟨pre.length, (tagHitAt_iff _ _).mpr (Or.inl ⟨post, ?_⟩)⟩
      rw [he, List.drop_left]
    · refine ⟨pre.length, (tagHitAt_iff _ _).mpr (Or.inr ⟨ws, post, ?_, hws⟩)⟩
      rw [he, List.drop_left]

theorem isInfixB_exists {needle l : Str} (h : isInfixB needle l = true) :
    ∃ pre post, l = pre ++ (needle ++ post) := by
  induction l with
  | nil =>
      have hne : needle = [] := by simpa [isInfixB] using h
      exact ⟨[], [], by simp [hne]⟩
  | cons c t ih =>
      simp only [isInfixB, Bool.or_eq_true] at h
      rcases h with h1 | h1
      · obtain ⟨post, hp⟩ := List.isPrefixOf_iff_prefix.mp h1
        exact ⟨[], post, by rw [List.nil_append, ← hp]⟩
      · obtain ⟨pre, post, hp⟩ := ih h1
        exact ⟨c :: pre, post, by simp [hp]⟩

theorem pairedB_exists {l : Str} (h : pairedB l = true) :
    ∃ pre post, l = pre ++ (strOf "<consensus_reached>" ++ post) := by
  induction l with
  | nil => simp [pairedB] at h
  | cons c t ih =>
      simp only [pairedB, Bool.or_eq_true, Bool.and_eq_true] at h
      rcases h with ⟨hpre, -⟩ | h1
      · obtain ⟨post, hp⟩ := List.isPrefixOf_iff_prefix.mp hpre
        exact ⟨[], post, by rw [List.nil_append, ← hp]⟩
      · obtain ⟨pre, post, hp⟩ := ih h1
        exact ⟨c :: pre, post, by simp [hp]⟩

/-- The spec's marker predicate is at least as strong as the code's detector:
a message carrying the self-closing or the paired marker is detected. -/
theorem specMarker_implies_check (text : Str)
    (h : specMarkerC1 text = true) : check_tag_presence text consensusTag = true := by
  have hlow : lowerStr consensusTag = consensusTag := by decide
  rcases (Bool.or_eq_true _ _).mp (by simpa [specMarkerC1] using h) with h1 | h1
  · obtain ⟨pre, post, hp⟩ := isInfixB_exists h1
    refine (check_tag_presence_iff text consensusTag).mpr (Or.inr ⟨pre, [], post, ?_, by simp⟩)
    rw [hlow, hp]
    rfl
  · obtain ⟨pre, post, hp⟩ := pairedB_exists h1
    refine (check_tag_presence_iff text consensusTag).mpr (Or.inl ⟨pre, post, ?_⟩)
    rw [hlow, hp]
    rfl

/-! ## Claim C1 -/

/-- **C1 counterexample**: on the message `"<consensus_reached>"` — a bare
opening tag with no closing tag and no self-closing form — the detector
returns `true`, while the claim's predicate (self-closing marker or paired
`<consensus_reached>...</consensus_reached>`) is false.  The claim's
"only if" direction therefore fails on the code. -/
theorem consensus_detector_claim_cex :
    check_tag_presence (strOf "<consensus_reached>") consensusTag = true ∧
    specMarkerC1 (strOf "<consensus_reached>") = false := by
  constructor
  · decide
  · decide

/-- **C1 (amended)**: the consensus detector is a pure function of the
coordinator's message that returns `true` iff the message contains,
case-insensitively, the opening tag `<consensus_reached>` (with or without
a matching closing tag) or `<consensus_reached` followed by optional
whitespace and `/>`; in particular every absent or empty message yields
`false` (no decomposition of the empty string exists). -/
theorem consensus_detector_characterization (text : Str) :
    check_tag_presence text consensusTag = true ↔
      (∃ pre post, lowerStr text = pre ++ (strOf "<consensus_reached>" ++ post)) ∨
      (∃ pre ws post,
        lowerStr text = pre ++ (strOf "<consensus_reached" ++ (ws ++ (strOf "/>" ++ post))) ∧
        ∀ c ∈ ws, isPySpace c = true) := by
  rw [check_tag_presence_iff]
  rw [(by decide : lowerStr consensusTag = consensusTag)]
  exact Iff.rfl

/-! ## Helper lemmas: the group-chat session -/

theorem msuffix_suffix_mkey (id : Str) : msuffix <:+ mkey id := ⟨id, rfl⟩

theorem mkey_ne_chatKey (id : Str) : mkey id ≠ chatKey := by
  intro h
  exact (by decide : ¬ (msuffix <:+ chatKey)) (h ▸ msuffix_suffix_mkey id)

theorem mkey_inj {a b : Str} (h : mkey a = mkey b) : a = b :=
  List.append_cancel_right h

theorem coordMsgKey_eq_mkey : coordMsgKey = mkey (strOf "Coordinator") := by decide

theorem getD_wgWrite_notkey (pairs : List (Str × Str)) (s : List (Str × Str)) (k d : Str)
    (h : ∀ p ∈ pairs, mkey p.1 ≠ k) :
    getD (wgWrite pairs s) k d = getD s k d := by
  induction pairs generalizing s with
  | nil => rfl
  | cons p t ih =>
      show getD (wgWrite t (setk s (mkey p.1) p.2)) k d = _
      rw [ih _ (fun q hq => h q (by simp [hq])), getD_setk,
        if_neg (fun hh => h p (by simp) hh.symm)]

theorem getD_chatKey_writesState (cfg : GroupChatCfg) (hck : cfg.coordKey = coordMsgKey)
    (i : Nat) (s : List (Str × Str)) :
    getD (writesState cfg i s) chatKey [] = getD s chatKey [] := by
  unfold writesState
  rw [hck, getD_setk, if_neg (by decide : ¬ (chatKey = coordMsgKey))]
  exact getD_wgWrite_notkey _ _ _ _ (fun p _ => mkey_ne_chatKey p.1)

theorem chatHistory_roundStep (cfg : GroupChatCfg) (hck : cfg.coordKey = coordMsgKey)
    (i : Nat) (s : List (Str × Str)) :
    getD (roundStep cfg i s) chatKey [] =
      getD s chatKey [] ++
        (['\n'] ++ List.intercalate ['\n']
          ((newMessages (writesState cfg i s)).map (fun p => fmtEntry p.1 p.2))) := by
  unfold roundStep applyUpd
  rw [getD_setk, if_pos rfl]
  unfold updDelta
  rw [getD_chatKey_writesState cfg hck, List.append_assoc]

theorem escalate_roundStep (cfg : GroupChatCfg) (hck : cfg.coordKey = coordMsgKey)
    (i : Nat) (s : List (Str × Str)) :
    escalate (roundStep cfg i s) = check_tag_presence (cfg.coordOut i) consensusTag := by
  unfold escalate roundStep applyUpd
  rw [getD_setk, if_neg (by decide : ¬ (coordMsgKey = chatKey))]
  unfold writesState
  rw [hck, getD_setk, if_pos rfl]

theorem runLoopAux_consensus (cfg : GroupChatCfg) (hck : cfg.coordKey = coordMsgKey) :
    ∀ (i n k : Nat) (s : List (Str × Str)), i < n →
      (∀ j, j < i → check_tag_presence (cfg.coordOut (k + j)) consensusTag = false) →
      check_tag_presence (cfg.coordOut (k + i)) consensusTag = true →
      (runLoopAux cfg n k s).1 = LoopTerminal.CONSENSUS_REACHED ∧
        (runLoopAux cfg n k s).2.1 = k + i + 1 := by
  intro i
  induction i with
  | zero =>
      intro n k s hn hprev hi
      obtain ⟨m, rfl⟩ : ∃ m, n = m + 1 := ⟨n - 1, by omega⟩
      have hi' : check_tag_presence (cfg.coordOut k) consensusTag = true := by simpa using hi
      simp only [runLoopAux]
      rw [escalate_roundStep cfg hck, hi']
      simp
  | succ i ih =>
      intro n k s hn hprev hi
      obtain ⟨m, rfl⟩ : ∃ m, n = m + 1 := ⟨n - 1, by omega⟩
      have h0 : check_tag_presence (cfg.coordOut k) consensusTag = false := by
        simpa using hprev 0 (Nat.succ_pos i)
      simp only [runLoopAux]
      rw [escalate_roundStep cfg hck, h0]
      simp only [Bool.false_eq_true, if_false]
      have hprev' : ∀ j, j < i →
          check_tag_presence (cfg.coordOut (k + 1 + j)) consensusTag = false := by
        intro j hj
        have heq : k + 1 + j = k + (j + 1) := by omega
        rw [heq]
        exact hprev (j + 1) (by omega)
      have hi' : check_tag_presence (cfg.coordOut (k + 1 + i)) consensusTag = true := by
        have heq : k + 1 + i = k + (i + 1) := by omega
        rw [heq]
        exact hi
      have hres := ih m (k + 1) (roundStep cfg k s) (by omega) hprev' hi'
      refine ⟨hres.1, ?_⟩
      have h2 := hres.2
      omega

theorem runLoopAux_exhausts (cfg : GroupChatCfg) (hck : cfg.coordKey = coordMsgKey) :
    ∀ (n k : Nat) (s : List (Str × Str)),
      (∀ j, j < n → check_tag_presence (cfg.coordOut (k + j)) consensusTag = false) →
      (runLoopAux cfg n k s).1 = LoopTerminal.EXHAUSTED ∧
        (runLoopAux cfg n k s).2.1 = k + n := by
  intro n
  induction n with
  | zero => intro k s _; exact ⟨rfl, rfl⟩
  | succ m ih =>
      intro k s h
      have h0 : check_tag_presence (cfg.coordOut k) consensusTag = false := by
        simpa using h 0 (Nat.succ_pos m)
      simp only [runLoopAux]
      rw [escalate_roundStep cfg hck, h0]
      simp only [Bool.false_eq_true, if_false]
      have h' : ∀ j, j < m →
          check_tag_presence (cfg.coordOut (k + 1 + j)) consensusTag = false := by
        intro j hj
        have heq : k + 1 + j = k + (j + 1) := by omega
        rw [heq]
        exact h (j + 1) (by omega)
      have hres := ih (k + 1) (roundStep cfg k s) h'
      refine ⟨hres.1, ?_⟩
      have h2 := hres.2
      omega

/-! ## Claim C4 -/

/-- **C4**: `chat_history` is append-only across rounds — for every round
`i` of any run of the built workflow (the coordinator writing to its
`Coordinator_message` slot), the transcript after round `i` is a prefix of
the transcript after round `i+1`: the update only concatenates new text
onto the previous value, so no previously appended entry is ever removed or
rewritten. -/
theorem chat_history_append_only (cfg : GroupChatCfg) (hck : cfg.coordKey = coordMsgKey)
    (s0 : List (Str × Str)) (i : Nat) :
    getD (stateAfter cfg s0 i) chatKey [] <+: getD (stateAfter cfg s0 (i + 1)) chatKey [] := by
  show _ <+: getD (roundStep cfg i (stateAfter cfg s0 i)) chatKey []
  rw [chatHistory_roundStep cfg hck]
  exact List.prefix_append _ _

/-- **C4 witness**: the append-only property at a concrete run and round. -/
theorem chat_history_append_only_witness :
    getD (stateAfter cfgW [] 1) chatKey [] <+: getD (stateAfter cfgW [] 2) chatKey [] :=
  chat_history_append_only cfgW rfl [] 1

/-! ## Claim C2 -/

/-- **C2**: if round `i` executes (all earlier rounds' consensus checks were
negative and `i` is within the budget) and the coordinator's round-`i`
message contains the consensus marker (any casing, self-closing or paired —
the spec's predicate), then round `i`'s consensus check yields the
escalation signal, the controller terminates in `CONSENSUS_REACHED`, and
exactly `i + 1` rounds are executed — no round after round `i`. -/
theorem consensus_marker_halts_loop (cfg : GroupChatCfg) (m i : Nat)
    (s0 : List (Str × Str)) (hck : cfg.coordKey = coordMsgKey) (him : i < m)
    (hprev : ∀ j, j < i → check_tag_presence (cfg.coordOut j) consensusTag = false)
    (hmark : specMarkerC1 (cfg.coordOut i) = true) :
    escalate (roundStep cfg i (stateAfter cfg s0 i)) = true ∧
    (runLoop cfg m s0).1 = LoopTerminal.CONSENSUS_REACHED ∧
      (runLoop cfg m s0).2.1 = i + 1 := by
  have hchk : check_tag_presence (cfg.coordOut i) consensusTag = true :=
    specMarker_implies_check _ hmark
  unfold runLoop
  have h := runLoopAux_consensus cfg hck i m 0 s0 him
    (by intro j hj; simpa using hprev j hj)
    (by simpa using hchk)
  refine ⟨?_, h.1, by have h2 := h.2; omega⟩
  rw [escalate_roundStep cfg hck]
  exact hchk

/-- **C2 witness**: a run whose coordinator emits the paired marker in round
1 stops in `CONSENSUS_REACHED` after exactly 2 rounds. -/
theorem consensus_marker_halts_loop_witness :
    escalate (roundStep cfgC 1 (stateAfter cfgC [] 1)) = true ∧
    (runLoop cfgC 3 []).1 = LoopTerminal.CONSENSUS_REACHED ∧
      (runLoop cfgC 3 []).2.1 = 1 + 1 :=
  consensus_marker_halts_loop cfgC 3 1 [] rfl (by decide) (by decide) (by decide)

/-! ## Claim C3 -/

/-- **C3 counterexample**: the claim fails as stated — a coordinator that
every round emits only the bare opening tag `<consensus_reached>` never
produces the consensus marker in the spec's sense (neither self-closing nor
paired), yet the run stops after 1 round in `CONSENSUS_REACHED`, not after
`max_iterations = 2` rounds in `EXHAUSTED`. -/
theorem marker_free_run_claim_cex :
    (∀ j, j < 2 → specMarkerC1 (cfgB.coordOut j) = false) ∧
    (runLoop cfgB 2 []).1 = LoopTerminal.CONSENSUS_REACHED ∧
    (runLoop cfgB 2 []).2.1 = 1 := by
  refine ⟨by decide, ?_, ?_⟩ <;> decide

/-- **C3 (amended)**: if the coordinator's messages never trigger the
detector (no self-closing form and no opening tag `<consensus_reached>`,
case-insensitively, in any of the first `max_iterations` rounds), the loop
executes exactly `max_iterations` rounds — each round the sequence
working-group fan-out, coordinator, transcript update, consensus check —
and then terminates in the `EXHAUSTED` state; it never runs more than
`max_iterations` rounds. -/
theorem detector_silent_exhausts_budget (cfg : GroupChatCfg) (m : Nat)
    (s0 : List (Str × Str)) (hck : cfg.coordKey = coordMsgKey)
    (hnever : ∀ j, j < m → check_tag_presence (cfg.coordOut j) consensusTag = false) :
    (runLoop cfg m s0).1 = LoopTerminal.EXHAUSTED ∧ (runLoop cfg m s0).2.1 = m := by
  unfold runLoop
  have h := runLoopAux_exhausts cfg hck m 0 s0 (by intro j hj; simpa using hnever j hj)
  exact ⟨h.1, by have h2 := h.2; omega⟩

/-- **C3 witness**: a marker-free coordinator exhausts a budget of 2 rounds. -/
theorem detector_silent_exhausts_budget_witness :
    (runLoop cfgW 2 []).1 = LoopTerminal.EXHAUSTED ∧ (runLoop cfgW 2 []).2.1 = 2 :=
  detector_silent_exhausts_budget cfgW 2 [] rfl (by decide)

/-! ## Claim C9 -/

/-- **C9**: the consensus check is hardwired to the key
`Coordinator_message` with an empty-string default.  If the coordinator
agent's output key is any other string (and no participant writes
`Coordinator_message` either, nor does the initial state carry it), the
detector evaluates the empty string every round, the escalation signal is
never raised, and the loop can only terminate by exhausting
`max_iterations` — even if the coordinator emits the marker every round. -/
theorem hardwired_coordinator_key (cfg : GroupChatCfg) (m : Nat)
    (s0 : List (Str × Str)) (hck : cfg.coordKey ≠ coordMsgKey)
    (hwg : ∀ r p, p ∈ cfg.wgOut r → mkey p.1 ≠ coordMsgKey)
    (h0 : getD s0 coordMsgKey [] = []) :
    (∀ i, getD (stateAfter cfg s0 i) coordMsgKey [] = []) ∧
    (∀ i, escalate (stateAfter cfg s0 (i + 1)) = false) ∧
    (runLoop cfg m s0).1 = LoopTerminal.EXHAUSTED ∧ (runLoop cfg m s0).2.1 = m := by
  have hstep : ∀ (i : Nat) (s : List (Str × Str)), getD s coordMsgKey [] = [] →
      getD (roundStep cfg i s) coordMsgKey [] = [] := by
    intro i s hs
    unfold roundStep applyUpd writesState
    rw [getD_setk, if_neg (by decide : ¬ (coordMsgKey = chatKey)), getD_setk,
      if_neg (fun hh => hck hh.symm), getD_wgWrite_notkey _ _ _ _ (hwg i), hs]
  have hkey : ∀ i, getD (stateAfter cfg s0 i) coordMsgKey [] = [] := by
    intro i
    induction i with
    | zero => exact h0
    | succ n ih => exact hstep n _ ih
  have hesc : ∀ i, escalate (stateAfter cfg s0 (i + 1)) = false := by
    intro i
    unfold escalate
    rw [hkey (i + 1)]
    decide
  refine ⟨hkey, hesc, ?_⟩
  have haux : ∀ (n k : Nat) (s : List (Str × Str)), getD s coordMsgKey [] = [] →
      (runLoopAux cfg n k s).1 = LoopTerminal.EXHAUSTED ∧
        (runLoopAux cfg n k s).2.1 = k + n := by
    intro n
    induction n with
    | zero => intro k s _; exact ⟨rfl, rfl⟩
    | succ p ih =>
        intro k s hs
        have hs' : getD (roundStep cfg k s) coordMsgKey [] = [] := hstep k s hs
        have he : escalate (roundStep cfg k s) = false := by
          unfold escalate
          rw [hs']
          decide
        simp only [runLoopAux]
        rw [he]
        simp only [Bool.false_eq_true, if_false]
        have hres := ih (k + 1) (roundStep cfg k s) hs'
        refine ⟨hres.1, ?_⟩
        have h2 := hres.2
        omega
  unfold runLoop
  have h := haux m 0 s0 h0
  exact ⟨h.1, by have h2 := h.2; omega⟩

/-- **C9 witness**: with the coordinator writing to `Judge_message` and
emitting the self-closing marker every round, the run still exhausts its
budget of 2 rounds. -/
theorem hardwired_coordinator_key_witness :
    (∀ i, getD (stateAfter cfgM [] i) coordMsgKey [] = []) ∧
    (∀ i, escalate (stateAfter cfgM [] (i + 1)) = false) ∧
    (runLoop cfgM 2 []).1 = LoopTerminal.EXHAUSTED ∧ (runLoop cfgM 2 []).2.1 = 2 :=
  hardwired_coordinator_key cfgM 2 [] (by decide)
    (fun r p hp => by
      have hp' : p = (strOf "A", strOf "hi") := by simpa [cfgM] using hp
      rw [hp']
      decide)
    rfl

/-! ## Claim C6 -/

theorem setk_setk_same (s : List (Str × Str)) (k v : Str) :
    setk (setk s k v) k v = setk s k v := by
  induction s with
  | nil => simp [setk]
  | cons p t ih =>
      by_cases hp : p.1 = k
      · subst hp
        simp [setk]
      · simp [setk, hp, ih]

/-- **C6**: the transcript updater is idempotent for a fixed round's message
set: run twice on the same session snapshot `s` (no agent re-invoked between
the runs, so both runs read the same snapshot), both runs compute the same
`state_delta` `updDelta s`, committing it a second time leaves the session
unchanged, and the new transcript text is the round's entries appended once,
not twice. -/
theorem transcript_updater_idempotent (s : List (Str × Str)) :
    setk (applyUpd s) chatKey (updDelta s) = applyUpd s ∧
    getD (applyUpd s) chatKey [] =
      getD s chatKey [] ++
        (['\n'] ++ List.intercalate ['\n'] ((newMessages s).map (fun p => fmtEntry p.1 p.2))) := by
  constructor
  · exact setk_setk_same s chatKey (updDelta s)
  · unfold applyUpd
    rw [getD_setk, if_pos rfl]
    unfold updDelta
    rw [List.append_assoc]

/-! ## Claim C8 -/

/-- **C8**: for every filesystem/environment outcome and input path,
`unzip_file` returns (rather than raising) a dictionary whose `status` is
the string `success` or the string `error` and which always carries a
`message` field; on every error return — `UNZIP_PATH` unset or empty, file
missing, not a file, directory-creation failure, extraction failure — the
`extracted_files` field is the empty list. -/
theorem unzip_file_contract (env : UnzipEnv) (filePath : Str) :
    (lookupOpt (unzip_file env filePath) (strOf "status") = some (.str (strOf "success")) ∨
     lookupOpt (unzip_file env filePath) (strOf "status") = some (.str (strOf "error"))) ∧
    (∃ m, lookupOpt (unzip_file env filePath) (strOf "message") = some (.str m)) ∧
    (lookupOpt (unzip_file env filePath) (strOf "status") = some (.str (strOf "error")) →
      lookupOpt (unzip_file env filePath) (strOf "extracted_files") = some (.files [])) := by
  have herr : ∀ msg : Str,
      lookupOpt (uzErr msg) (strOf "status") = some (.str (strOf "error")) ∧
      lookupOpt (uzErr msg) (strOf "message") = some (.str msg) ∧
      lookupOpt (uzErr msg) (strOf "extracted_files") = some (.files []) :=
    fun msg => ⟨rfl, rfl, rfl⟩
  have hok : ∀ (dir : Str) (fl : List FileInfo) (msg : Str),
      lookupOpt (uzOk dir fl msg) (strOf "status") = some (.str (strOf "success")) ∧
      lookupOpt (uzOk dir fl msg) (strOf "message") = some (.str msg) ∧
      ¬ (lookupOpt (uzOk dir fl msg) (strOf "status") = some (.str (strOf "error"))) := by
    intro dir fl msg
    refine ⟨rfl, rfl, fun h => ?_⟩
    have h2 : some (UZVal.str (strOf "success")) = some (UZVal.str (strOf "error")) :=
      (rfl : lookupOpt (uzOk dir fl msg) (strOf "status") = _).symm.trans h
    exact absurd h2 (by decide)
  unfold unzip_file
  split_ifs <;>
    first
    | exact ⟨Or.inr (herr _).1, ⟨_, (herr _).2.1⟩, fun _ => (herr _).2.2⟩
    | exact ⟨Or.inl (hok _ _ _).1, ⟨_, (hok _ _ _).2.1⟩,
        fun hcon => absurd hcon (hok _ _ _).2.2⟩

/-! ## Helper lemmas: the final-answer extractor -/

theorem dropWhile_idem (p : Char → Bool) (l : Str) :
    (l.dropWhile p).dropWhile p = l.dropWhile p := by
  induction l with
  | nil => rfl
  | cons c t ih =>
      by_cases hc : p c = true
      · simp [List.dropWhile_cons, hc, ih]
      · simp [List.dropWhile_cons, hc]

theorem dropWhile_cons_false {p : Char → Bool} {l : Str} {x : Char} {xs : Str}
    (h : l.dropWhile p = x :: xs) : p x = false := by
  induction l with
  | nil => simp at h
  | cons c t ih =>
      rw [List.dropWhile_cons] at h
      by_cases hc : p c = true
      · rw [if_pos hc] at h
        exact ih h
      · rw [if_neg hc] at h
        have h1 : c = x := by injection h
        rw [← h1]
        cases hpc : p c with
        | false => rfl
        | true => exact absurd hpc hc

theorem pyStrip_idem (s : Str) : pyStrip (pyStrip s) = pyStrip s := by
  unfold pyStrip pyStripL
  set a := s.dropWhile isPySpace with ha
  set b := (a.reverse.dropWhile isPySpace).reverse with hb
  have hfront : b.dropWhile isPySpace = b := by
    cases hcb : b with
    | nil => simp
    | cons x xs =>
        have hbpre : b <+: a := by
          rw [hb]
          have hsuf : a.reverse.dropWhile isPySpace <:+ a.reverse :=
            List.dropWhile_suffix _
          have := List.reverse_prefix.mpr hsuf
          rwa [List.reverse_reverse] at this
        obtain ⟨t, ht⟩ := hbpre
        rw [hcb] at ht
        have hax : a = x :: (xs ++ t) := by rw [← ht]; rfl
        have hpx : isPySpace x = false := dropWhile_cons_false (ha.symm ▸ hax)
        rw [List.dropWhile_cons, if_neg (by simp [hpx])]
  rw [hfront]
  have htail : b.reverse.dropWhile isPySpace = b.reverse := by
    rw [hb, List.reverse_reverse]
    exact dropWhile_idem _ _
  rw [htail, List.reverse_reverse]

theorem splitLines_length_one {s : Str} (h : (splitLines s).length = 1) :
    splitLines s = [s] := by
  have hi : [('\n' : Char)].intercalate (s.splitOn '\n') = s :=
    @List.intercalate_splitOn Char s '\n' _
  cases hsp : splitLines s with
  | nil => rw [hsp] at h; simp at h
  | cons a t =>
      cases t with
      | nil =>
          have hone : [('\n' : Char)].intercalate [a] = a := by
            simp [List.intercalate]
          rw [show s.splitOn '\n' = [a] from hsp, hone] at hi
          rw [hi]
      | cons b t' => rw [hsp] at h; simp at h

theorem findSub_eq_some_iff {needle : Str} (hne : needle ≠ []) (l : Str) (i : Nat) :
    findSub needle l = some i ↔
      needle.isPrefixOf (l.drop i) = true ∧
        ∀ j, j < i → ¬ (needle.isPrefixOf (l.drop j) = true) := by
  induction l generalizing i with
  | nil =>
      simp only [findSub]
      constructor
      · intro h
        exact absurd h (by simp)
      · rintro ⟨h1, -⟩
        rw [List.drop_nil] at h1
        exact absurd (List.prefix_nil.mp (List.isPrefixOf_iff_prefix.mp h1)) hne
  | cons c t ih =>
      by_cases h0 : needle.isPrefixOf (c :: t) = true
      · rw [show findSub needle (c :: t) = some 0 from by simp [findSub, h0]]
        constructor
        · intro h
          have h' : i = 0 := by
            have := h
            injection this with h2
            exact h2.symm
          subst h'
          exact ⟨by simpa using h0, fun j hj => absurd hj (Nat.not_lt_zero j)⟩
        · rintro ⟨h1, h2⟩
          cases i with
          | zero => rfl
          | succ j => exact absurd (by simpa using h0) (h2 0 (Nat.succ_pos j))
      · rw [show findSub needle (c :: t) = (findSub needle t).map (· + 1) from by
          simp [findSub, h0]]
        constructor
        · intro h
          obtain ⟨i', hi', hie⟩ : ∃ i', findSub needle t = some i' ∧ i = i' + 1 := by
            cases hft : findSub needle t with
            | none => rw [hft] at h; simp at h
            | some v =>
                rw [hft] at h
                simp at h
                exact ⟨v, rfl, h.symm⟩
          subst hie
          obtain ⟨h1, h2⟩ := (ih i').mp hi'
          refine ⟨by simpa using h1, ?_⟩
          intro j hj
          cases j with
          | zero => simpa using h0
          | succ j' =>
              have := h2 j' (by omega)
              simpa using this
        · rintro ⟨h1, h2⟩
          cases i with
          | zero => exact absurd (by simpa using h1) h0
          | succ i' =>
              have hpa : needle.isPrefixOf (t.drop i') = true := by simpa using h1
              have hpb : ∀ j, j < i' → ¬ (needle.isPrefixOf (t.drop j) = true) := by
                intro j hj
                have := h2 (j + 1) (by omega)
                simpa using this
              rw [(ih i').mpr ⟨hpa, hpb⟩]
              rfl

theorem extract_some_of_find {response : Str} {i : Nat}
    (h : findSub faNeedle (lowerStr response) = some i) :
    extract_final_answer response =
      some (pyStrip (takeLine ((response.drop (i + faNeedle.length)).dropWhile isPySpace))) := by
  unfold extract_final_answer
  rw [h]

theorem extract_eq_fallback {response : Str}
    (h : findSub faNeedle (lowerStr response) = none) :
    extract_final_answer response = fallbackAnswer response := by
  unfold extract_final_answer
  rw [h]

/-! ## Claim C7 -/

/-- **C7 counterexample**: for the response consisting solely of the line
`FINAL ANSWER:`, the extractor does find the prefix and returns the
stripped remainder of that line — the empty string — yet the result record
carries the sentinel `NO_FINAL_ANSWER_FOUND` rather than that remainder,
because `if not final_answer` treats the empty string as missing.  So "a
response containing a line beginning with FINAL ANSWER: yields the stripped
remainder of that line as the answer" fails on this input. -/
theorem final_answer_claim_cex :
    extract_final_answer (strOf "FINAL ANSWER:") = some [] ∧
    lookupOpt (mkResult (strOf "t0") (strOf "FINAL ANSWER:")) (strOf "model_answer") =
      some sentinel ∧
    sentinel ≠ [] := by
  refine ⟨by decide, by decide, by decide⟩

/-- **C7 (amended)**: absence of a usable final-answer line is non-fatal.
Whenever the extractor returns no answer or an empty answer, the result
record is still produced and carries `NO_FINAL_ANSWER_FOUND`.  When the
response contains `FINAL ANSWER:` case-insensitively (at the first
occurrence anywhere in the text, not only at a line start) and the text
after that occurrence — skipping whitespace, up to the next newline,
stripped — is nonempty, the record carries exactly that text as the
answer. -/
theorem final_answer_absence_nonfatal (taskId response : Str) :
    ((extract_final_answer response = none ∨ extract_final_answer response = some []) →
      lookupOpt (mkResult taskId response) (strOf "model_answer") = some sentinel) ∧
    (∀ i, faNeedle.isPrefixOf ((lowerStr response).drop i) = true →
      (∀ j, j < i → ¬ (faNeedle.isPrefixOf ((lowerStr response).drop j) = true)) →
      pyStrip (takeLine ((response.drop (i + faNeedle.length)).dropWhile isPySpace)) ≠ [] →
      lookupOpt (mkResult taskId response) (strOf "model_answer") =
        some (pyStrip (takeLine ((response.drop (i + faNeedle.length)).dropWhile isPySpace)))) := by
  have hlk : lookupOpt (mkResult taskId response) (strOf "model_answer") =
      some (model_answer response) := rfl
  constructor
  · intro hcase
    rw [hlk]
    rcases hcase with he | he
    · unfold model_answer
      rw [he]
    · unfold model_answer
      rw [he]
      rfl
  · intro i hpre hmin hne
    have hfind : findSub faNeedle (lowerStr response) = some i :=
      (findSub_eq_some_iff (by decide) _ i).mpr ⟨hpre, hmin⟩
    have hext := extract_some_of_find hfind
    rw [hlk]
    simp only [model_answer, hext]
    rw [if_neg hne]

/-- **C7 witness**: a marker-free multi-line response yields the sentinel;
`FINAL ANSWER: 42` yields `42`. -/
theorem final_answer_absence_nonfatal_witness :
    lookupOpt (mkResult (strOf "t1") (strOf "abc\ndef")) (strOf "model_answer") =
      some sentinel ∧
    lookupOpt (mkResult (strOf "t1") (strOf "FINAL ANSWER: 42")) (strOf "model_answer") =
      some (pyStrip (takeLine (((strOf "FINAL ANSWER: 42").drop
        (0 + faNeedle.length)).dropWhile isPySpace))) :=
  ⟨(final_answer_absence_nonfatal (strOf "t1") (strOf "abc\ndef")).1 (Or.inl (by decide)),
   (final_answer_absence_nonfatal (strOf "t1") (strOf "FINAL ANSWER: 42")).2 0 (by decide)
     (fun j hj => absurd hj (Nat.not_lt_zero j)) (by decide)⟩

/-! ## Claim C10 -/

/-- **C10**: the single-line fallback of the extractor.  For every response
in which the regex search finds no `FINAL ANSWER:` match: if the stripped
response consists of exactly one line, that line (stripped) is returned;
if it has two or more lines and the second-to-last is not exactly
`FINAL ANSWER:` (case-insensitive after stripping), the extractor returns
no answer. -/
theorem extract_fallback_lines (response : Str)
    (hnm : findSub faNeedle (lowerStr response) = none) :
    ((splitLines (pyStrip response)).length = 1 →
      extract_final_answer response = some (pyStrip response)) ∧
    (2 ≤ (splitLines (pyStrip response)).length →
      pyUpper (pyStrip ((splitLines (pyStrip response)).getD
        ((splitLines (pyStrip response)).length - 2) [])) ≠ strOf "FINAL ANSWER:" →
      extract_final_answer response = none) := by
  constructor
  · intro h1
    rw [extract_eq_fallback hnm]
    simp only [fallbackAnswer]
    rw [splitLines_length_one h1]
    simp [pyStrip_idem]
  · intro h2 hne
    rw [extract_eq_fallback hnm]
    simp only [fallbackAnswer]
    rw [if_neg (fun hc => hne hc.2), if_neg (fun hc : _ = 1 => by omega)]

/-- **C10 witness**: `hello` (one line, no match) yields `hello`; `a\nb`
(two lines, second-to-last not `FINAL ANSWER:`) yields no answer. -/
theorem extract_fallback_lines_witness :
    extract_final_answer (strOf "hello") = some (pyStrip (strOf "hello")) ∧
    extract_final_answer (strOf "a\nb") = none :=
  ⟨(extract_fallback_lines (strOf "hello") (by decide)).1 (by decide),
   (extract_fallback_lines (strOf "a\nb") (by decide)).2 (by decide) (by decide)⟩

/-! ## Helper lemmas: the transcript fold -/

theorem lookupOpt_wgWrite (pairs : List (Str × Str)) (s : List (Str × Str)) (k : Str) :
    lookupOpt (wgWrite pairs s) k =
      match lastWrite k pairs with
      | some v => some v
      | none => lookupOpt s k := by
  induction pairs generalizing s with
  | nil => rfl
  | cons p t ih =>
      show lookupOpt (wgWrite t (setk s (mkey p.1) p.2)) k = _
      rw [ih]
      cases hl : lastWrite k t with
      | some v => simp [lastWrite, hl]
      | none =>
          simp only [lastWrite, hl]
          rw [lookupOpt_setk]
          by_cases hk : k = mkey p.1
          · rw [if_pos hk, if_pos hk.symm]
          · rw [if_neg hk, if_neg (fun hh => hk hh.symm)]

theorem lastWrite_mkey (id : Str) (pairs : List (Str × Str)) :
    lastWrite (mkey id) pairs = plookupLast id pairs := by
  induction pairs with
  | nil => rfl
  | cons p t ih =>
      simp only [lastWrite, plookupLast, ih]
      cases plookupLast id t with
      | some v => rfl
      | none =>
          by_cases hp : p.1 = id
          · rw [if_pos (by rw [hp]), if_pos hp]
          · rw [if_neg (fun hh => hp (mkey_inj hh)), if_neg hp]

theorem keys_nodup_wgWrite (pairs : List (Str × Str)) (s : List (Str × Str))
    (h : (s.map Prod.fst).Nodup) : ((wgWrite pairs s).map Prod.fst).Nodup := by
  induction pairs generalizing s with
  | nil => exact h
  | cons p t ih => exact ih _ (keys_nodup_setk _ _ _ h)

theorem stemOf_mkey (id : Str) : stemOf (mkey id) = id := by
  unfold stemOf mkey
  have hlen : (id ++ msuffix).length - msuffix.length = id.length := by
    rw [List.length_append]
    omega
  rw [hlen]
  exact List.take_left id msuffix

theorem keyMatches_mkey {id : Str} (hid : id ≠ []) (hnl : ∀ c ∈ id, ¬ (c = '\n')) :
    keyMatches (mkey id) = true := by
  unfold keyMatches
  have h1 : msuffix.isSuffixOf (mkey id) = true :=
    List.isSuffixOf_iff_suffix.mpr (msuffix_suffix_mkey id)
  have h2 : msuffix.length < (mkey id).length := by
    unfold mkey
    rw [List.length_append]
    have := List.length_pos.mpr hid
    omega
  have h3 : ((mkey id).take ((mkey id).length - msuffix.length)).all
      (fun c => !(c = '\n')) = true := by
    have hst : (mkey id).take ((mkey id).length - msuffix.length) = id := stemOf_mkey id
    rw [hst, List.all_eq_true]
    intro c hc
    simp [hnl c hc]
  rw [h1, h3]
  simp [h2]

theorem keyMatches_decomp {k : Str} (h : keyMatches k = true) :
    k = mkey (stemOf k) ∧ stemOf k ≠ [] ∧ ∀ c ∈ stemOf k, ¬ (c = '\n') := by
  simp only [keyMatches, Bool.and_eq_true, decide_eq_true_eq] at h
  obtain ⟨⟨h1, h2⟩, h3⟩ := h
  obtain ⟨t, ht⟩ := List.isSuffixOf_iff_suffix.mp h1
  have hlen : k.length - msuffix.length = t.length := by
    rw [← ht, List.length_append]
    omega
  have hstem : stemOf k = t := by
    unfold stemOf
    rw [hlen, ← ht]
    exact List.take_left t msuffix
  refine ⟨?_, ?_, ?_⟩
  · rw [hstem]
    exact ht.symm
  · rw [hstem]
    intro hnil
    rw [hnil] at ht
    rw [← ht] at h2
    simp at h2
  · intro c hc
    have hall := List.all_eq_true.mp h3 c (by
      have hrfl : stemOf k = k.take (k.length - msuffix.length) := rfl
      rw [← hrfl]
      exact hc)
    simpa using hall

theorem newMessages_mem_decomp {s : List (Str × Str)} {id m : Str}
    (h : (id, m) ∈ newMessages s) :
    (mkey id, m) ∈ s ∧ id ≠ [] ∧ ∀ c ∈ id, ¬ (c = '\n') := by
  unfold newMessages at h
  obtain ⟨p, hp, hf⟩ := List.mem_filterMap.mp h
  by_cases hkm : keyMatches p.1 = true
  · rw [if_pos hkm] at hf
    have hpair := Option.some_inj.mp hf
    have hid : stemOf p.1 = id := congrArg Prod.fst hpair
    have hm : p.2 = m := congrArg Prod.snd hpair
    obtain ⟨hd, hne, hnl⟩ := keyMatches_decomp hkm
    refine ⟨?_, hid ▸ hne, hid ▸ hnl⟩
    rw [← hid, ← hm, ← hd]
    exact hp
  · rw [if_neg hkm] at hf
    simp at hf

theorem mem_newMessages_iff {s : List (Str × Str)} (hnd : (s.map Prod.fst).Nodup)
    {id : Str} (hid : id ≠ []) (hnl : ∀ c ∈ id, ¬ (c = '\n')) (m : Str) :
    (id, m) ∈ newMessages s ↔ lookupOpt s (mkey id) = some m := by
  constructor
  · intro h
    exact (mem_iff_lookupOpt hnd _ _).mp (newMessages_mem_decomp h).1
  · intro h
    have hmem : (mkey id, m) ∈ s := (mem_iff_lookupOpt hnd _ _).mpr h
    unfold newMessages
    refine List.mem_filterMap.mpr ⟨(mkey id, m), hmem, ?_⟩
    rw [if_pos (keyMatches_mkey hid hnl), stemOf_mkey]

theorem newMessages_names_nodup {s : List (Str × Str)}
    (hnd : (s.map Prod.fst).Nodup) : ((newMessages s).map Prod.fst).Nodup := by
  induction s with
  | nil => simp [newMessages]
  | cons p t ih =>
      simp only [List.map_cons, List.nodup_cons] at hnd
      by_cases hkm : keyMatches p.1 = true
      · have hred : newMessages (p :: t) = (stemOf p.1, p.2) :: newMessages t := by
          simp [newMessages, hkm]
        rw [hred, List.map_cons, List.nodup_cons]
        refine ⟨?_, ih hnd.2⟩
        intro hc
        obtain ⟨q, hq, hqe⟩ := List.mem_map.mp hc
        have hdec := newMessages_mem_decomp (show (q.1, q.2) ∈ newMessages t from hq)
        have hkey : mkey q.1 ∈ t.map Prod.fst := List.mem_map_of_mem Prod.fst hdec.1
        have hd := keyMatches_decomp hkm
        rw [hqe, ← hd.1] at hkey
        exact hnd.1 hkey
      · have hred : newMessages (p :: t) = newMessages t := by
          simp [newMessages, hkm]
        rw [hred]
        exact ih hnd.2

theorem plookupLast_some_mem {id : Str} {pairs : List (Str × Str)} {v : Str}
    (h : plookupLast id pairs = some v) : (id, v) ∈ pairs := by
  induction pairs with
  | nil => simp [plookupLast] at h
  | cons p t ih =>
      cases hl : plookupLast id t with
      | some w =>
          have hh : plookupLast id (p :: t) = some w := by simp [plookupLast, hl]
          rw [hh] at h
          have hwv : w = v := by injection h
          subst hwv
          exact List.mem_cons_of_mem _ (ih hl)
      | none =>
          have hh : plookupLast id (p :: t) = if p.1 = id then some p.2 else none := by
            simp [plookupLast, hl]
          rw [hh] at h
          by_cases hp : p.1 = id
          · rw [if_pos hp] at h
            have hv : p.2 = v := by injection h
            subst hp
            rw [← hv]
            exact List.mem_cons_self _ _
          · rw [if_neg hp] at h
            simp at h

theorem latestBefore_some_produced {cfg : GroupChatCfg} {id : Str} {r : Nat} {m : Str}
    (h : latestBefore cfg id r = some m) :
    ∃ j, j < r ∧ (id, m) ∈ cfg.wgOut j := by
  induction r with
  | zero => simp [latestBefore] at h
  | succ n ih =>
      cases hl : plookupLast id (cfg.wgOut n) with
      | some w =>
          have hh : latestBefore cfg id (n + 1) = some w := by simp [latestBefore, hl]
          rw [hh] at h
          have hwm : w = m := by injection h
          subst hwm
          exact ⟨n, Nat.lt_succ_self n, plookupLast_some_mem hl⟩
      | none =>
          have hh : latestBefore cfg id (n + 1) = latestBefore cfg id n := by
            simp [latestBefore, hl]
          rw [hh] at h
          obtain ⟨j, hj, hm⟩ := ih h
          exact ⟨j, by omega, hm⟩

theorem stateAfter_inv (cfg : GroupChatCfg) (hck : cfg.coordKey = coordMsgKey) (r : Nat) :
    ((stateAfter cfg [] r).map Prod.fst).Nodup ∧
    (∀ id : Str, id ≠ strOf "Coordinator" →
      lookupOpt (stateAfter cfg [] r) (mkey id) = latestBefore cfg id r) := by
  induction r with
  | zero =>
      refine ⟨by simp [stateAfter], fun id _ => ?_⟩
      simp [stateAfter, lookupOpt, latestBefore]
  | succ n ih =>
      constructor
      · show ((roundStep cfg n (stateAfter cfg [] n)).map Prod.fst).Nodup
        unfold roundStep applyUpd writesState
        exact keys_nodup_setk _ _ _ (keys_nodup_setk _ _ _ (keys_nodup_wgWrite _ _ ih.1))
      · intro id hid
        show lookupOpt (roundStep cfg n (stateAfter cfg [] n)) (mkey id) = _
        unfold roundStep applyUpd writesState
        rw [lookupOpt_setk, if_neg (mkey_ne_chatKey id), hck, lookupOpt_setk,
          if_neg (fun hh => hid (mkey_inj (hh.trans coordMsgKey_eq_mkey))),
          lookupOpt_wgWrite, lastWrite_mkey, ih.2 id hid]
        cases hl : plookupLast id (cfg.wgOut n) with
        | some v => simp [latestBefore, hl]
        | none => simp [latestBefore, hl]

theorem lookupOpt_mkey_writesState (cfg : GroupChatCfg) (hck : cfg.coordKey = coordMsgKey)
    (r : Nat) {id : Str} (hid : id ≠ strOf "Coordinator") :
    lookupOpt (writesState cfg r (stateAfter cfg [] r)) (mkey id) =
      latestBefore cfg id (r + 1) := by
  unfold writesState
  rw [hck, lookupOpt_setk,
    if_neg (fun hh => hid (mkey_inj (hh.trans coordMsgKey_eq_mkey))),
    lookupOpt_wgWrite, lastWrite_mkey, (stateAfter_inv cfg hck r).2 id hid]
  cases hl : plookupLast id (cfg.wgOut r) with
  | some v => simp [latestBefore, hl]
  | none => simp [latestBefore, hl]

theorem lookupOpt_coord_writesState (cfg : GroupChatCfg) (hck : cfg.coordKey = coordMsgKey)
    (r : Nat) (s : List (Str × Str)) :
    lookupOpt (writesState cfg r s) coordMsgKey = some (cfg.coordOut r) := by
  unfold writesState
  rw [hck, lookupOpt_setk, if_pos rfl]

theorem keys_nodup_writesState (cfg : GroupChatCfg) (r : Nat) (s : List (Str × Str))
    (h : (s.map Prod.fst).Nodup) :
    ((writesState cfg r s).map Prod.fst).Nodup := by
  unfold writesState
  exact keys_nodup_setk _ _ _ (keys_nodup_wgWrite _ _ h)

/-! ## Claim C5 -/

/-- **C5 counterexample**: participant `A` produces `hi` in round 0 and
nothing in round 1, yet round 1's transcript update re-appends the stale
entry `[A]: hi` — the fold iterates over every `*_message` key in the
session state, not over the messages produced in the round just completed.
So "no message from a participant that produced no output this round" fails. -/
theorem transcript_update_claim_cex :
    cfgW.wgOut 1 = [] ∧
    cfgW.coordOut 1 = strOf "ok" ∧
    appendedInRound cfgW [] 1 = strOf "\n[A]: hi\n\n[Coordinator]: ok\n" ∧
    isInfixB (strOf "[A]: hi") (appendedInRound cfgW [] 1) = true := by
  refine ⟨rfl, rfl, by decide, by decide⟩

/-- **C5 (amended)**: starting from a fresh session, every round `r`'s
transcript update appends exactly one entry `[identity]: message` per
`*_message` key in the session state — that is, one entry for the
coordinator carrying this round's message, and one entry for each
participant identity that has produced at least one output in rounds
`0..r`, carrying its most recent message (so a participant silent this
round but productive earlier is re-appended with its stale message, and a
participant that produces no output in any round is absent from every
round's fold); each identity appears exactly once, and the appended text is
precisely the newline-joined formatting of these entries. -/
theorem transcript_update_entries (cfg : GroupChatCfg) (r : Nat)
    (hck : cfg.coordKey = coordMsgKey)
    (hwg : ∀ (j : Nat), ∀ p ∈ cfg.wgOut j, p.1 ≠ [] ∧ ∀ c ∈ p.1, ¬ (c = '\n')) :
    (∀ id m : Str, id ≠ strOf "Coordinator" →
      ((id, m) ∈ newMessages (writesState cfg r (stateAfter cfg [] r)) ↔
        latestBefore cfg id (r + 1) = some m)) ∧
    (strOf "Coordinator", cfg.coordOut r) ∈
      newMessages (writesState cfg r (stateAfter cfg [] r)) ∧
    ((newMessages (writesState cfg r (stateAfter cfg [] r))).map Prod.fst).Nodup ∧
    appendedInRound cfg [] r =
      ['\n'] ++ List.intercalate ['\n']
        ((newMessages (writesState cfg r (stateAfter cfg [] r))).map
          (fun p => fmtEntry p.1 p.2)) := by
  have hnd : ((stateAfter cfg [] r).map Prod.fst).Nodup := (stateAfter_inv cfg hck r).1
  have hndw := keys_nodup_writesState cfg r _ hnd
  refine ⟨?_, ?_, ?_, ?_⟩
  · intro id m hid
    constructor
    · intro h
      have hdec := newMessages_mem_decomp h
      have hlu := (mem_iff_lookupOpt hndw _ _).mp hdec.1
      rw [lookupOpt_mkey_writesState cfg hck r hid] at hlu
      exact hlu
    · intro h
      obtain ⟨j, hj, hmem⟩ := latestBefore_some_produced h
      obtain ⟨hid1, hid2⟩ := hwg j _ hmem
      rw [mem_newMessages_iff hndw hid1 hid2,
        lookupOpt_mkey_writesState cfg hck r hid]
      exact h
  · have hlk := lookupOpt_coord_writesState cfg hck r (stateAfter cfg [] r)
    have hmem : (coordMsgKey, cfg.coordOut r) ∈ writesState cfg r (stateAfter cfg [] r) :=
      (mem_iff_lookupOpt hndw _ _).mpr hlk
    unfold newMessages
    refine List.mem_filterMap.mpr ⟨(coordMsgKey, cfg.coordOut r), hmem, ?_⟩
    rw [if_pos (by decide : keyMatches coordMsgKey = true)]
    rw [show stemOf coordMsgKey = strOf "Coordinator" from by decide]
  · exact newMessages_names_nodup hndw
  · unfold appendedInRound
    rw [show stateAfter cfg [] (r + 1) = roundStep cfg r (stateAfter cfg [] r) from rfl,
      chatHistory_roundStep cfg hck]
    exact List.drop_left _ _

/-- **C5 amended witness**: in the concrete run, round 0's fold contains
`A`'s entry and the appended text is the formatted entries. -/
theorem transcript_update_entries_witness :
    ((strOf "A", strOf "hi") ∈
      newMessages (writesState cfgW 0 (stateAfter cfgW [] 0))) ∧
    appendedInRound cfgW [] 0 =
      ['\n'] ++ List.intercalate ['\n']
        ((newMessages (writesState cfgW 0 (stateAfter cfgW [] 0))).map
          (fun p => fmtEntry p.1 p.2)) := by
  have h := transcript_update_entries cfgW 0 rfl
    (fun j p hp => by
      by_cases hj : j = 0
      · have hp' : p = (strOf "A", strOf "hi") := by simpa [cfgW, hj] using hp
        rw [hp']
        exact ⟨by decide, by decide⟩
      · simp [cfgW, hj] at hp)
  exact ⟨(h.1 (strOf "A") (strOf "hi") (by decide)).mpr (by decide), h.2.2.2⟩

end Argo
